import Mathlib

/-!
go-livepeer: service lifecycle and orchestrator discovery.

A shallow embedding of `core/livepeernode.go` (`StartEthServices`,
`StopEthServices`) and `discovery/discovery.go` (`NewOrchestratorPool`,
`NewOnchainOrchestratorPool`, `GetOrchestrators`), followed by the properties
proved about them.

Conventions.
* A Go `error` is an `Option String`; `none` is `nil`.
* A Go pointer that may be `nil` is an `Option`.
* Go code that may panic at run time returns an `Outcome`.
* Ranging over a Go map visits its entries in an unspecified order: the order
  is an explicit argument, a permutation of the map's entries.
-/

namespace Livepeer

/-! ## core/livepeernode.go -/

/-- A Go `error`: `none` is `nil`. -/
abbrev GoError := Option String

/-- An `eth.EventService` as the lifecycle code sees it: what its `Start` and its
`Stop` return. -/
structure EventService where
  Start : GoError
  Stop : GoError
deriving DecidableEq, Repr

/-- The field `EthServices map[string]eth.EventService`, as its list of entries;
a map has no two entries with the same key (`NodupKeys`). -/
abbrev ServiceMap := List (String × EventService)

/-- A map holds at most one entry per key. -/
def NodupKeys (m : ServiceMap) : Prop := (m.map Prod.fst).Nodup

instance (m : ServiceMap) : Decidable (NodupKeys m) := by
  unfold NodupKeys; infer_instance

/-- One observed call of `Start` or `Stop`: the key of the service called and the
error the call returned. -/
abbrev Call := String × GoError

/-- The `for k, s := range n.EthServices` loop of `StartEthServices`
(livepeernode.go lines 95-104) over the entries in the order the range visits
them. `calls` are the calls made so far. The second component is `some e` when
the loop left the function through `return err`, `none` when it ran to its end. -/
def startLoop : List (String × EventService) → List Call → List Call × GoError
  | [], calls => (calls, none)
  | (k, s) :: rest, calls =>
    if k = "BlockService" then
      startLoop rest calls
    else
      match s.Start with
      | some e => (calls ++ [(k, some e)], some e)
      | none => startLoop rest (calls ++ [(k, none)])

/-- `StartEthServices` (livepeernode.go lines 93-115). `services` is the map,
`order` the order in which the range loop visits its entries. Returns the calls
of `Start` made, in order, and the returned error. -/
def StartEthServices (services : ServiceMap) (order : List (String × EventService)) :
    List Call × GoError :=
  match startLoop order [] with
  | (calls, some e) => (calls, some e)
  | (calls, none) =>
    match services.lookup "BlockService" with
    | some s =>
      match s.Start with
      | some e => (calls ++ [("BlockService", some e)], some e)
      | none => (calls ++ [("BlockService", none)], none)
    | none => (calls, none)

/-- The `for _, s := range n.EthServices` loop of `StopEthServices`
(livepeernode.go lines 119-124), with the same conventions as `startLoop`. -/
def stopLoop : List (String × EventService) → List Call → List Call × GoError
  | [], calls => (calls, none)
  | (k, s) :: rest, calls =>
    match s.Stop with
    | some e => (calls ++ [(k, some e)], some e)
    | none => stopLoop rest (calls ++ [(k, none)])

/-- `StopEthServices` (livepeernode.go lines 117-127): the calls of `Stop` made,
in order, and the returned error. -/
def StopEthServices (order : List (String × EventService)) : List Call × GoError :=
  match stopLoop order [] with
  | (calls, some e) => (calls, some e)
  | (calls, none) => (calls, none)

/-- A registered entry `lpTypes.Transcoder`, reduced to the field the embedded code
reads. -/
structure Transcoder where
  ServiceURI : String
deriving DecidableEq, Repr

/-- The registry client `eth.LivepeerEthClient`, as the result of its method
`RegisteredTranscoders`. -/
structure LivepeerEthClient where
  RegisteredTranscoders : List Transcoder × GoError
deriving DecidableEq, Repr

/-- The part of `LivepeerNode` the embedded code reads: the registry client `Eth`
(nil in offchain mode) and the service map. -/
structure LivepeerNode where
  Eth : Option LivepeerEthClient
  EthServices : ServiceMap
deriving DecidableEq, Repr

/-! ## discovery/discovery.go -/

/-- The result of Go code that may panic at run time. -/
inductive Outcome (α : Type) where
  | ok (a : α)
  | panic
deriving DecidableEq, Repr

/-- `strings.HasPrefix(s, prefix)`:
`len(s) >= len(prefix) && s[:len(prefix)] == prefix`. -/
def HasPrefix (s pre : String) : Bool :=
  decide (pre.data.length ≤ s.data.length) && (s.data.take pre.data.length == pre.data)

/-- Lines 38-40 of `NewOrchestratorPool`:
`if !strings.HasPrefix(addr, "http") { addr = "https://" + addr }`. -/
def normaliseAddr (addr : String) : String :=
  if !HasPrefix addr "http" then "https://" ++ addr else addr

/-- The value `rpcMethods.getOrchestrator` returns for a candidate: the info
pointer and the error. -/
abbrev RpcResult (Info : Type) := Option Info × GoError

/-- The struct `orchestratorPool`: the candidate uris and the `rpc` interface
value (nil until a caller sets it). The field `bcast` is not read by the
embedded code. `URL` stands for `*url.URL`, `Info` for `net.OrchestratorInfo`. -/
structure orchestratorPool (URL Info : Type) where
  uris : List URL
  rpc : Option (URL → RpcResult Info)

/-- The first loop of `NewOrchestratorPool` (lines 37-47). `parse` is
`url.ParseRequestURI`, `none` being its error. `uris` is the slice built so far. -/
def parseLoop {URL : Type} (parse : String → Option URL) : List String → List URL → List URL
  | [], uris => uris
  | addr :: rest, uris =>
    match parse (normaliseAddr addr) with
    | none => parseLoop parse rest uris
    | some uri => parseLoop parse rest (uris ++ [uri])

/-- The second loop of `NewOrchestratorPool` (lines 55-58) over the indices
`r.Perm(len(uris))` yields; `uris[i]` panics when `i` is out of range. -/
def permLoop {URL : Type} (uris : List URL) : List Nat → List URL → Outcome (List URL)
  | [], randomizedUris => .ok randomizedUris
  | i :: rest, randomizedUris =>
    match uris[i]? with
    | none => .panic
    | some uri => permLoop uris rest (randomizedUris ++ [uri])

/-- `NewOrchestratorPool` (lines 34-61). `parse` is `url.ParseRequestURI` and
`randPerm n` is what `r.Perm(n)` returns for the time-seeded source `r`. The node
is only used for the `bcast` field. -/
def NewOrchestratorPool {URL Info : Type} (parse : String → Option URL)
    (randPerm : Nat → List Nat) (addresses : List String) :
    Outcome (orchestratorPool URL Info) :=
  let uris := parseLoop parse addresses []
  match permLoop uris (randPerm uris.length) [] with
  | .panic => .panic
  | .ok randomizedUris => .ok { uris := randomizedUris, rpc := none }

/-- `NewOnchainOrchestratorPool` (lines 63-82). The first component counts the
calls of `node.Eth.RegisteredTranscoders`; the pool pointer is `none` for the
`return nil` statements. -/
def NewOnchainOrchestratorPool {URL Info : Type} (parse : String → Option URL)
    (randPerm : Nat → List Nat) (node : LivepeerNode) :
    Nat × Outcome (Option (orchestratorPool URL Info)) :=
  match node.Eth with
  | none => (0, .ok none)
  | some eth =>
    match eth.RegisteredTranscoders with
    | (_, some _) => (1, .ok none)
    | (orchestrators, none) =>
      let addresses := orchestrators.map (fun orch => orch.ServiceURI)
      match NewOrchestratorPool parse randPerm addresses with
      | .panic => (1, .panic)
      | .ok pool => (1, .ok (some pool))

/-- A character allowed in a URI scheme (RFC 3986, section 3.1). -/
def schemeChar (c : Char) : Bool :=
  c.isAlpha || c.isDigit || c == '+' || c == '-' || c == '.'

/-- Whether an address carries a scheme: it starts with a letter, goes on with
scheme characters and reaches a colon. This is the notion the specification
appeals to; the source has no such test. -/
def carriesScheme (addr : String) : Bool :=
  match addr.data.span schemeChar with
  | (c :: _, ':' :: _) => c.isAlpha
  | _ => false

/-- The normalisation as the specification words it: the secure scheme is prefixed
exactly when the address carries no scheme. To be compared with `normaliseAddr`,
which is what the source does. -/
def specNormaliseAddr (addr : String) : String :=
  if carriesScheme addr then addr else "https://" ++ addr

/-! ### GetOrchestrators

The goroutines of one call record their responses one at a time, serialised by
`respLock`. The coordinator wakes on the first completion signal or on the
deadline, and only afterwards reads `orchInfos[:numOrchestrators]`: `respLock` is
released by then and `orchChanLock` is taken by nobody else, so goroutines can
still record responses between the wake-up and the read. A run is driven by a
schedule: the order in which the query goroutines come back from
`getOrchestrator` and reach `respLock.Lock()`, the point at which the deadline of
the context fires, and the point at which the woken coordinator reads the
slice. -/

/-- A Go slice: the elements within its length and its capacity. The backing
array holds zero values between length and capacity. -/
structure Slice (α : Type) where
  elems : List α
  cap : Nat
deriving DecidableEq, Repr

/-- The empty composite literal (length 0, capacity 0), as in
`orchInfos := []*net.OrchestratorInfo{}`. -/
def Slice.empty {α : Type} : Slice α := ⟨[], 0⟩

/-- The built-in `append(s, x)`. A full slice is reallocated: `growCap c` is the
capacity the runtime picks for a slice of capacity `c`, and the new capacity is
never less than the new length. -/
def Slice.append {α : Type} (growCap : Nat → Nat) (s : Slice α) (x : α) : Slice α :=
  if s.elems.length < s.cap then ⟨s.elems ++ [x], s.cap⟩
  else ⟨s.elems ++ [x], max (s.elems.length + 1) (growCap s.cap)⟩

/-- The slice expression `s[:k]`. Its upper bound is the capacity of `s`, not its
length: `0 <= k <= cap(s)` or the expression panics; the positions between
`len(s)` and `k` hold the zero value. -/
def Slice.upTo {α : Type} (zero : α) (s : Slice α) (k : Int) : Outcome (List α) :=
  if 0 ≤ k ∧ k ≤ (s.cap : Int) then
    .ok ((s.elems ++ List.replicate (s.cap - s.elems.length) zero).take k.toNat)
  else .panic

/-- Where a query goroutine stands: still in `getOrchestrator`, returned from
`getOrchInfo`, blocked in `orchChan <- struct{}{}` while holding `respLock`, or
blocked in `respLock.Lock()`. -/
inductive TaskStatus where
  | running
  | done
  | blockedSend
  | blockedLock
deriving DecidableEq, Repr

/-- One step of a run: goroutine `i` comes back from its query and reaches
`respLock.Lock()`; the deadline of `ctx` fires; or the coordinator, woken by the
signal or by the deadline, evaluates `orchInfos[:numOrchestrators]` (line 118 or
line 115) and returns. -/
inductive Event where
  | respond (i : Nat)
  | deadline
  | read
deriving DecidableEq, Repr

/-- What `GetOrchestrators` hands back: the result slice and the (always nil)
error. -/
abbrev Returned (Info : Type) := Outcome (List (Option Info) × GoError)

/-- The coordinator: blocked in the `select`; past the `select` (it has received
the completion signal or seen the deadline) with the slice not read yet; or
finished with a result. -/
inductive Coord (Info : Type) where
  | waiting
  | woken
  | returned (r : Returned Info)
deriving DecidableEq, Repr

/-- The variables shared by the goroutines of one call of `GetOrchestrators`. -/
structure RunState (Info : Type) where
  orchInfos : Slice (Option Info)
  numResp : Nat
  numSuccessResp : Nat
  respLocked : Bool
  tasks : List TaskStatus
  coord : Coord Info
deriving DecidableEq, Repr

/-- Both arms of the `select` end in `return orchInfos[:numOrchestrators], nil`. -/
def returnOrchs {Info : Type} (orchInfos : Slice (Option Info)) (numOrchestrators : Int) :
    Returned Info :=
  match orchInfos.upTo none numOrchestrators with
  | .ok l => .ok (l, none)
  | .panic => .panic

/-- The state after `go getOrchInfo(uri)` for every uri (lines 85-109). -/
def initState {URL Info : Type} (uris : List URL) : RunState Info :=
  { orchInfos := Slice.empty, numResp := 0, numSuccessResp := 0, respLocked := false,
    tasks := uris.map (fun _ => TaskStatus.running), coord := .waiting }

/-- The closure `getOrchInfo` (lines 93-105) from `respLock.Lock()` on, run by
goroutine `i` for the candidate `uri` once `getOrchestrator` has returned.

If `respLock` is held (by a goroutine blocked in the send) the goroutine blocks
in `Lock`. Otherwise it counts its response, appends a successful one and tests
the completion condition. When the condition holds it sends on the unbuffered
`orchChan`: a coordinator waiting in the `select` receives (and is woken), and
the goroutine unlocks and ends; a coordinator that is past the `select` never
receives again, and the goroutine stays blocked in the send with `respLock`
held. -/
def getOrchInfo {URL Info : Type} (growCap : Nat → Nat) (uris : List URL)
    (rpc : URL → RpcResult Info) (numOrchestrators : Int) (s : RunState Info) (i : Nat)
    (uri : URL) : RunState Info :=
  if s.respLocked then
    { s with tasks := s.tasks.set i .blockedLock }
  else
    let numResp := s.numResp + 1
    let orchInfos :=
      if (rpc uri).2 = none then s.orchInfos.append growCap (rpc uri).1 else s.orchInfos
    let numSuccessResp :=
      if (rpc uri).2 = none then s.numSuccessResp + 1 else s.numSuccessResp
    if (numSuccessResp : Int) ≥ numOrchestrators ∨ numResp ≥ uris.length then
      match s.coord with
      | .waiting =>
        { orchInfos := orchInfos, numResp := numResp, numSuccessResp := numSuccessResp,
          respLocked := false, tasks := s.tasks.set i .done, coord := .woken }
      | .woken =>
        { orchInfos := orchInfos, numResp := numResp, numSuccessResp := numSuccessResp,
          respLocked := true, tasks := s.tasks.set i .blockedSend, coord := .woken }
      | .returned r =>
        { orchInfos := orchInfos, numResp := numResp, numSuccessResp := numSuccessResp,
          respLocked := true, tasks := s.tasks.set i .blockedSend, coord := .returned r }
    else
      { orchInfos := orchInfos, numResp := numResp, numSuccessResp := numSuccessResp,
        respLocked := false, tasks := s.tasks.set i .done, coord := s.coord }

/-- One event of a run. `respond i`: goroutine `i`, if it is still in its query,
comes back from `getOrchestrator` and runs the rest of `getOrchInfo`.
`deadline`: a coordinator still waiting takes the `ctx.Done()` arm of the
`select`. `read`: a woken coordinator evaluates `orchInfos[:numOrchestrators]`
on the slice as it is then, and returns. -/
def step {URL Info : Type} (growCap : Nat → Nat) (uris : List URL) (rpc : URL → RpcResult Info)
    (numOrchestrators : Int) (s : RunState Info) : Event → RunState Info
  | .deadline =>
    match s.coord with
    | .waiting => { s with coord := .woken }
    | .woken => s
    | .returned _ => s
  | .read =>
    match s.coord with
    | .waiting => s
    | .woken => { s with coord := .returned (returnOrchs s.orchInfos numOrchestrators) }
    | .returned _ => s
  | .respond i =>
    match uris[i]?, s.tasks[i]? with
    | some uri, some .running => getOrchInfo growCap uris rpc numOrchestrators s i uri
    | _, _ => s

/-- The state a schedule leads to, from a given state. -/
def runFrom {URL Info : Type} (growCap : Nat → Nat) (uris : List URL) (rpc : URL → RpcResult Info)
    (numOrchestrators : Int) (s : RunState Info) (sched : List Event) : RunState Info :=
  sched.foldl (step growCap uris rpc numOrchestrators) s

/-- The state of a call of `GetOrchestrators` after the events of `sched`. -/
def runGetOrchestrators {URL Info : Type} (growCap : Nat → Nat) (uris : List URL)
    (rpc : URL → RpcResult Info) (numOrchestrators : Int) (sched : List Event) : RunState Info :=
  runFrom growCap uris rpc numOrchestrators (initState uris) sched

/-- `GetOrchestrators` (lines 84-124) under a schedule. A coordinator the schedule
leaves woken reads the slice in the state reached; one it leaves waiting is woken
by the deadline of `context.WithTimeout`, which always fires in the end, and
reads the slice then. With a nil `rpc` the first goroutine panics in
`o.rpc.getOrchestrator`. -/
def GetOrchestrators {URL Info : Type} (growCap : Nat → Nat) (o : orchestratorPool URL Info)
    (numOrchestrators : Int) (sched : List Event) : Returned Info :=
  match o.rpc with
  | none =>
    if o.uris.isEmpty then returnOrchs Slice.empty numOrchestrators else .panic
  | some rpc =>
    match (runGetOrchestrators growCap o.uris rpc numOrchestrators sched).coord with
    | .returned r => r
    | .woken =>
      returnOrchs (runGetOrchestrators growCap o.uris rpc numOrchestrators sched).orchInfos
        numOrchestrators
    | .waiting =>
      returnOrchs (runGetOrchestrators growCap o.uris rpc numOrchestrators sched).orchInfos
        numOrchestrators

/-- The field read `o.uris` through a pool pointer, as in `range o.uris`
(line 107): a nil pointer dereference panics. -/
def poolUris {URL Info : Type} (o : Option (orchestratorPool URL Info)) : Outcome (List URL) :=
  match o with
  | none => .panic
  | some pool => .ok pool.uris

/-- The info pointer the query of candidate `i` returns. -/
def infoOf {URL Info : Type} (uris : List URL) (rpc : URL → RpcResult Info) (i : Nat) :
    Option (Option Info) :=
  (uris[i]?).map (fun u => (rpc u).1)

/-! ### Sample service maps -/

/-- A service whose `Start` and `Stop` both succeed. -/
def okService : EventService := ⟨none, none⟩

/-- A service whose `Start` and `Stop` both fail with the given message. -/
def failingService (msg : String) : EventService := ⟨some msg, some msg⟩

/-- The map `{A, B, BlockService}`, every service healthy. -/
def servicesABBlock : ServiceMap :=
  [("A", okService), ("BlockService", okService), ("B", okService)]

/-- The map `{A (fails), BlockService}`. -/
def servicesAFailsBlock : ServiceMap :=
  [("BlockService", okService), ("A", failingService "errA")]

/-- The map `{A (fails), B (succeeds)}`. -/
def servicesAFailsB : ServiceMap :=
  [("A", failingService "errA"), ("B", okService)]

/-- The map `{A, B, BlockService}` ranged over with `BlockService` first. -/
def orderBlockFirst : List (String × EventService) :=
  [("BlockService", okService), ("B", okService), ("A", okService)]

/-- The map `{A (fails), B (succeeds)}` ranged over with `B` first. -/
def orderBThenA : List (String × EventService) :=
  [("B", okService), ("A", failingService "errA")]

/-- A possible `r.Perm`: the indices in reverse. -/
def reversedIndices (n : Nat) : List Nat := (List.range n).reverse

/-- The capacity growth of the Go runtime for small slices of pointers. -/
def doubleCap (c : Nat) : Nat := if c = 0 then 1 else 2 * c

/-- A stand-in for `url.ParseRequestURI` on url strings: an address with a blank
is rejected. -/
def parseNoBlank (s : String) : Option String :=
  if s.data.contains ' ' then none else some s

/-- The stub of the tests: every query succeeds with the candidate's own uri. -/
def stubRpc (u : String) : RpcResult String := (some u, none)

/-- A stub whose queries all fail. -/
def failRpc (_ : String) : RpcResult String := (none, some "unreachable")

/-- The registered entries of the test: three service addresses. -/
def registeredOrchs : List Transcoder :=
  [⟨"https://127.0.0.1:89"⟩, ⟨"https://127.0.0.1:8937"⟩, ⟨"https://127.0.0.1:8938"⟩]

/-- A node in offchain mode: no registry client. -/
def offchainNode : LivepeerNode := ⟨none, []⟩

/-- A node whose registry client fails. -/
def failingRegistryNode : LivepeerNode := ⟨some ⟨([], some "registry unreachable")⟩, []⟩

/-- A node whose registry client answers with `registeredOrchs`. -/
def onchainNode : LivepeerNode := ⟨some ⟨(registeredOrchs, none)⟩, []⟩

/-! ## Lifecycle lemmas -/

/-- The entries the first loop of `StartEthServices` does not skip. -/
def nonBlock (l : List (String × EventService)) : List (String × EventService) :=
  l.filter (fun p => decide (p.1 ≠ "BlockService"))

theorem mem_nonBlock {l : List (String × EventService)} {p : String × EventService} :
    p ∈ nonBlock l ↔ p ∈ l ∧ p.1 ≠ "BlockService" := by
  simp [nonBlock, List.mem_filter]

/-- What the first loop of `StartEthServices` does: either it runs to its end,
having started every entry other than `BlockService`, all with success, or it
returns at the first entry whose `Start` fails. -/
theorem startLoop_spec (l : List (String × EventService)) (acc : List Call) :
    ((startLoop l acc).2 = none ∧
      (startLoop l acc).1 = acc ++ (nonBlock l).map (fun p => (p.1, none)) ∧
      ∀ p ∈ nonBlock l, p.2.Start = none) ∨
    (∃ pre k s e post, nonBlock l = pre ++ (k, s) :: post ∧ (∀ p ∈ pre, p.2.Start = none) ∧
      s.Start = some e ∧
      startLoop l acc = (acc ++ pre.map (fun p => (p.1, none)) ++ [(k, some e)], some e)) := by
  induction l generalizing acc with
  | nil => left; simp [startLoop, nonBlock]
  | cons hd tl ih =>
    obtain ⟨k, s⟩ := hd
    by_cases hk : k = "BlockService"
    · have hnb : nonBlock ((k, s) :: tl) = nonBlock tl := by simp [nonBlock, hk]
      have hsl : startLoop ((k, s) :: tl) acc = startLoop tl acc := by simp [startLoop, hk]
      rw [hnb, hsl]; exact ih acc
    · have hnb : nonBlock ((k, s) :: tl) = (k, s) :: nonBlock tl := by simp [nonBlock, hk]
      cases hs : s.Start with
      | some e =>
        right
        refine ⟨[], k, s, e, nonBlock tl, by simp [hnb], by simp, hs, ?_⟩
        simp [startLoop, hk, hs]
      | none =>
        have hsl : startLoop ((k, s) :: tl) acc = startLoop tl (acc ++ [(k, none)]) := by
          simp [startLoop, hk, hs]
        rw [hnb, hsl]
        rcases ih (acc ++ [(k, none)]) with ⟨h1, h2, h3⟩ | ⟨pre, k2, s2, e, post, h1, h2, h3, h4⟩
        · left
          refine ⟨h1, by simp [h2], ?_⟩
          intro p hp
          rcases List.mem_cons.1 hp with rfl | hp
          · exact hs
          · exact h3 p hp
        · right
          refine ⟨(k, s) :: pre, k2, s2, e, post, by simp [h1], ?_, h3, by simp [h4]⟩
          intro p hp
          rcases List.mem_cons.1 hp with rfl | hp
          · exact hs
          · exact h2 p hp

theorem lookup_some_mem {m : ServiceMap} {k : String} {s : EventService}
    (h : m.lookup k = some s) : (k, s) ∈ m := by
  induction m with
  | nil => simp at h
  | cons hd tl ih =>
    obtain ⟨k2, s2⟩ := hd
    by_cases hk : k = k2
    · subst hk; simp [List.lookup] at h; simp [h]
    · have : (k == k2) = false := by simp [hk]
      simp [List.lookup, this] at h
      exact List.mem_cons_of_mem _ (ih h)

theorem lookup_none_not_mem {m : ServiceMap} {k : String}
    (h : m.lookup k = none) : ∀ p ∈ m, p.1 ≠ k := by
  induction m with
  | nil => simp
  | cons hd tl ih =>
    obtain ⟨k2, s2⟩ := hd
    by_cases hk : k = k2
    · subst hk; simp [List.lookup] at h
    · have : (k == k2) = false := by simp [hk]
      simp only [List.lookup, this] at h
      intro p hp
      rcases List.mem_cons.1 hp with rfl | hp
      · exact fun h2 => hk h2.symm
      · exact ih h p hp

/-- In a map the entry found under a key is the only entry with that key. -/
theorem lookup_of_mem {m : ServiceMap} (hm : NodupKeys m) {k : String} {s : EventService}
    (h : (k, s) ∈ m) : m.lookup k = some s := by
  induction m with
  | nil => simp at h
  | cons hd tl ih =>
    obtain ⟨k2, s2⟩ := hd
    have hm2 : k2 ∉ tl.map Prod.fst ∧ NodupKeys tl := by
      simpa [NodupKeys] using hm
    rcases List.mem_cons.1 h with heq | htl
    · cases heq; simp [List.lookup]
    · have hk : k ≠ k2 := by
        intro hk; subst hk
        exact hm2.1 (List.mem_map.2 ⟨(k, s), htl, rfl⟩)
      have : (k == k2) = false := by simp [hk]
      simp [List.lookup, this]
      exact ih hm2.2 htl

/-- The names started by the first loop, followed by `BlockService`, are the keys
of the map in another order. -/
theorem nonBlock_keys_perm (l : List (String × EventService)) (hl : NodupKeys l)
    (hb : "BlockService" ∈ l.map Prod.fst) :
    ((nonBlock l).map Prod.fst ++ ["BlockService"]).Perm (l.map Prod.fst) := by
  induction l with
  | nil => simp at hb
  | cons hd tl ih =>
    obtain ⟨k, s⟩ := hd
    have hm2 : k ∉ tl.map Prod.fst ∧ NodupKeys tl := by
      simpa [NodupKeys] using hl
    by_cases hk : k = "BlockService"
    · subst hk
      have hnb : nonBlock (("BlockService", s) :: tl) = tl := by
        simp only [nonBlock]
        rw [List.filter_cons_of_neg (by simp)]
        apply List.filter_eq_self.2
        intro p hp
        have : p.1 ≠ "BlockService" := fun h => hm2.1 (List.mem_map.2 ⟨p, hp, h⟩)
        simpa using this
      rw [hnb]
      simp
    · have hnb : nonBlock ((k, s) :: tl) = (k, s) :: nonBlock tl := by simp [nonBlock, hk]
      have hb2 : "BlockService" ∈ tl.map Prod.fst := by
        have hb1 : "BlockService" = k ∨ "BlockService" ∈ tl.map Prod.fst := by
          simpa only [List.map_cons, List.mem_cons] using hb
        rcases hb1 with h | h
        · exact absurd h.symm hk
        · exact h
      rw [hnb]
      simpa using (ih hm2.2 hb2)

theorem nonBlock_eq_self (l : List (String × EventService))
    (hb : "BlockService" ∉ l.map Prod.fst) : nonBlock l = l := by
  apply List.filter_eq_self.2
  intro p hp
  have : p.1 ≠ "BlockService" := fun h => hb (List.mem_map.2 ⟨p, hp, h⟩)
  simpa using this

theorem StartEthServices_of_loop_fail {services : ServiceMap}
    {order : List (String × EventService)} {c : List Call} {e : String}
    (h : startLoop order [] = (c, some e)) : StartEthServices services order = (c, some e) := by
  simp [StartEthServices, h]

theorem StartEthServices_of_no_block {services : ServiceMap}
    {order : List (String × EventService)} {c : List Call}
    (h : startLoop order [] = (c, none)) (hl : services.lookup "BlockService" = none) :
    StartEthServices services order = (c, none) := by
  simp [StartEthServices, h, hl]

theorem StartEthServices_of_block {services : ServiceMap}
    {order : List (String × EventService)} {c : List Call} {s : EventService}
    (h : startLoop order [] = (c, none)) (hl : services.lookup "BlockService" = some s) :
    StartEthServices services order = (c ++ [("BlockService", s.Start)], s.Start) := by
  cases hs : s.Start <;> simp [StartEthServices, h, hl, hs]

/-- What the loop of `StopEthServices` does: either it runs to its end, having
stopped every entry with success, or it returns at the first entry whose `Stop`
fails. -/
theorem stopLoop_spec (l : List (String × EventService)) (acc : List Call) :
    ((stopLoop l acc).2 = none ∧
      (stopLoop l acc).1 = acc ++ l.map (fun p => (p.1, none)) ∧
      ∀ p ∈ l, p.2.Stop = none) ∨
    (∃ pre k s e post, l = pre ++ (k, s) :: post ∧ (∀ p ∈ pre, p.2.Stop = none) ∧
      s.Stop = some e ∧
      stopLoop l acc = (acc ++ pre.map (fun p => (p.1, none)) ++ [(k, some e)], some e)) := by
  induction l generalizing acc with
  | nil => left; simp [stopLoop]
  | cons hd tl ih =>
    obtain ⟨k, s⟩ := hd
    cases hs : s.Stop with
    | some e =>
      right
      refine ⟨[], k, s, e, tl, by simp, by simp, hs, ?_⟩
      simp [stopLoop, hs]
    | none =>
      have hsl : stopLoop ((k, s) :: tl) acc = stopLoop tl (acc ++ [(k, none)]) := by
        simp [stopLoop, hs]
      rw [hsl]
      rcases ih (acc ++ [(k, none)]) with ⟨h1, h2, h3⟩ | ⟨pre, k2, s2, e, post, h1, h2, h3, h4⟩
      · left
        refine ⟨h1, by simp [h2], ?_⟩
        intro p hp
        rcases List.mem_cons.1 hp with rfl | hp
        · exact hs
        · exact h3 p hp
      · right
        refine ⟨(k, s) :: pre, k2, s2, e, post, by simp [h1], ?_, h3, by simp [h4]⟩
        intro p hp
        rcases List.mem_cons.1 hp with rfl | hp
        · exact hs
        · exact h2 p hp

theorem StopEthServices_eq (order : List (String × EventService)) :
    StopEthServices order = stopLoop order [] := by
  unfold StopEthServices
  rcases h : stopLoop order [] with ⟨c, _ | e⟩ <;> rfl

/-! ## Lifecycle theorems -/

/-- C5: when every `Start` succeeds, `StartEthServices` returns nil, calls `Start`
exactly once on every registered service (the names called are the keys of the
map, each once), and with a `BlockService` registered the call of its `Start` is
the last one, after the `Start` of every other service, whatever the order in
which the map is ranged over. -/
theorem StartEthServices_all_succeed (services : ServiceMap)
    (order : List (String × EventService))
    (hkeys : NodupKeys services) (hord : order.Perm services)
    (hok : ∀ p ∈ services, p.2.Start = none) :
    (StartEthServices services order).2 = none ∧
    ((StartEthServices services order).1.map Prod.fst).Perm (services.map Prod.fst) ∧
    ((StartEthServices services order).1.map Prod.fst).Nodup ∧
    (∀ c ∈ (StartEthServices services order).1, c.2 = none) ∧
    ("BlockService" ∈ services.map Prod.fst →
      ∃ others, (StartEthServices services order).1.map Prod.fst = others ++ ["BlockService"] ∧
        "BlockService" ∉ others ∧
        ∀ p ∈ services, p.1 ≠ "BlockService" → p.1 ∈ others) := by
  have hordKeys : NodupKeys order := ((hord.map Prod.fst).nodup_iff).2 hkeys
  rcases startLoop_spec order [] with ⟨h1, h2, _⟩ | ⟨pre, k, s, e, post, h1, _, h3, _⟩
  · have hloop : startLoop order [] = ((nonBlock order).map (fun p => ((p.1, none) : Call)), none) := by
      apply Prod.ext
      · simpa using h2
      · exact h1
    by_cases hb : "BlockService" ∈ services.map Prod.fst
    · obtain ⟨⟨kb, sb⟩, hmem, hkb⟩ := List.mem_map.1 hb
      simp only at hkb; subst hkb
      have hl := lookup_of_mem hkeys hmem
      have hsb : sb.Start = none := hok _ hmem
      have hres := StartEthServices_of_block hloop hl
      rw [hsb] at hres
      have hnames : (StartEthServices services order).1.map Prod.fst
          = (nonBlock order).map Prod.fst ++ ["BlockService"] := by
        rw [hres]; simp [List.map_map, Function.comp_def]
      have hperm : ((nonBlock order).map Prod.fst ++ ["BlockService"]).Perm
          (services.map Prod.fst) :=
        (nonBlock_keys_perm order hordKeys ((hord.map Prod.fst).mem_iff.2 hb)).trans
          (hord.map Prod.fst)
      refine ⟨by rw [hres], by rw [hnames]; exact hperm, by rw [hnames]; exact hperm.nodup_iff.2 hkeys,
        ?_, fun _ => ⟨(nonBlock order).map Prod.fst, hnames, ?_, ?_⟩⟩
      · rw [hres]; intro c hc
        rcases List.mem_append.1 hc with hc | hc
        · obtain ⟨p, _, rfl⟩ := List.mem_map.1 hc; rfl
        · simp at hc; rw [hc]
      · intro hmem2
        obtain ⟨p, hp, hp1⟩ := List.mem_map.1 hmem2
        exact (mem_nonBlock.1 hp).2 hp1
      · intro p hp hne
        exact List.mem_map.2 ⟨p, mem_nonBlock.2 ⟨hord.mem_iff.2 hp, hne⟩, rfl⟩
    · have hl : services.lookup "BlockService" = none := by
        cases hls : services.lookup "BlockService" with
        | none => rfl
        | some sb => exact absurd (List.mem_map.2 ⟨_, lookup_some_mem hls, rfl⟩) hb
      have hres := StartEthServices_of_no_block hloop hl
      have hb2 : "BlockService" ∉ order.map Prod.fst := fun h => hb ((hord.map Prod.fst).mem_iff.1 h)
      have hnames : (StartEthServices services order).1.map Prod.fst = order.map Prod.fst := by
        rw [hres, nonBlock_eq_self order hb2]; simp [List.map_map, Function.comp_def]
      refine ⟨by rw [hres], by rw [hnames]; exact hord.map Prod.fst, by rw [hnames]; exact hordKeys,
        ?_, fun h => absurd h hb⟩
      rw [hres]; intro c hc
      obtain ⟨p, _, rfl⟩ := List.mem_map.1 hc; rfl
  · exfalso
    have hmem : (k, s) ∈ nonBlock order := by rw [h1]; simp
    have := hok _ (hord.mem_iff.1 (mem_nonBlock.1 hmem).1)
    simp [h3] at this

/-- Witness for C5: the map `{A, B, BlockService}` ranged over with `BlockService`
first. -/
theorem StartEthServices_all_succeed_witness :
    NodupKeys servicesABBlock ∧ orderBlockFirst.Perm servicesABBlock ∧
    (∀ p ∈ servicesABBlock, p.2.Start = none) ∧
    "BlockService" ∈ servicesABBlock.map Prod.fst ∧
    (StartEthServices servicesABBlock orderBlockFirst).2 = none ∧
    ((StartEthServices servicesABBlock orderBlockFirst).1.map Prod.fst).Perm
      (servicesABBlock.map Prod.fst) ∧
    ((StartEthServices servicesABBlock orderBlockFirst).1.map Prod.fst).Nodup ∧
    (∀ c ∈ (StartEthServices servicesABBlock orderBlockFirst).1, c.2 = none) ∧
    ("BlockService" ∈ servicesABBlock.map Prod.fst →
      ∃ others, (StartEthServices servicesABBlock orderBlockFirst).1.map Prod.fst
          = others ++ ["BlockService"] ∧
        "BlockService" ∉ others ∧
        ∀ p ∈ servicesABBlock, p.1 ≠ "BlockService" → p.1 ∈ others) :=
  ⟨by decide, by decide, by decide, by decide,
    StartEthServices_all_succeed servicesABBlock orderBlockFirst (by decide) (by decide)
      (by decide)⟩

/-- C6: if the `Start` of some registered service fails, `StartEthServices` returns
the error of the first `Start` call that fails and that call is the last one made
(every call before it succeeded); when a service other than `BlockService` fails,
`BlockService.Start` is never called; and nil is returned only if the `Start` of
every registered service succeeded. This holds for every order of ranging over
the map. -/
theorem StartEthServices_first_failure (services : ServiceMap)
    (order : List (String × EventService))
    (hkeys : NodupKeys services) (hord : order.Perm services) :
    ((∃ p ∈ services, p.2.Start ≠ none) →
      ∃ pre k s e, (StartEthServices services order).1 = pre ++ [(k, some e)] ∧
        (∀ c ∈ pre, c.2 = none) ∧ (k, s) ∈ services ∧ s.Start = some e ∧
        (StartEthServices services order).2 = some e) ∧
    ((∃ p ∈ services, p.1 ≠ "BlockService" ∧ p.2.Start ≠ none) →
      "BlockService" ∉ (StartEthServices services order).1.map Prod.fst) ∧
    ((StartEthServices services order).2 = none → ∀ p ∈ services, p.2.Start = none) := by
  rcases startLoop_spec order [] with ⟨h1, h2, h3⟩ | ⟨pre, k, s, e, post, h1, h2, h3, h4⟩
  · have hloop : startLoop order [] = ((nonBlock order).map (fun p => ((p.1, none) : Call)), none) := by
      apply Prod.ext
      · simpa using h2
      · exact h1
    have hothers : ∀ p ∈ services, p.1 ≠ "BlockService" → p.2.Start = none :=
      fun p hp hne => h3 p (mem_nonBlock.2 ⟨hord.mem_iff.2 hp, hne⟩)
    cases hl : services.lookup "BlockService" with
    | none =>
      have hres := StartEthServices_of_no_block hloop hl
      have hall : ∀ p ∈ services, p.2.Start = none :=
        fun p hp => hothers p hp (lookup_none_not_mem hl p hp)
      refine ⟨?_, ?_, fun _ => hall⟩
      · rintro ⟨p, hp, hne⟩; exact absurd (hall p hp) hne
      · rintro ⟨p, hp, _, hne⟩; exact absurd (hall p hp) hne
    | some sb =>
      have hres := StartEthServices_of_block hloop hl
      have hblock : ∀ p ∈ services, p.1 = "BlockService" → p.2 = sb := by
        intro p hp hp1
        have := lookup_of_mem hkeys (show (p.1, p.2) ∈ services from hp)
        rw [hp1, hl] at this
        exact (Option.some.inj this).symm
      refine ⟨?_, ?_, ?_⟩
      · rintro ⟨p, hp, hne⟩
        have hp1 : p.1 = "BlockService" := by
          by_contra hp1; exact hne (hothers p hp hp1)
        have hsb : sb.Start ≠ none := by rw [← hblock p hp hp1]; exact hne
        obtain ⟨e, he⟩ := Option.ne_none_iff_exists'.1 hsb
        refine ⟨(nonBlock order).map (fun p => ((p.1, none) : Call)), "BlockService", sb, e,
          by rw [hres, he], ?_, lookup_some_mem hl, he, by rw [hres, he]⟩
        intro c hc
        obtain ⟨q, _, rfl⟩ := List.mem_map.1 hc; rfl
      · rintro ⟨p, hp, hp1, hne⟩; exact absurd (hothers p hp hp1) hne
      · intro hnil p hp
        rw [hres] at hnil
        by_cases hp1 : p.1 = "BlockService"
        · rw [hblock p hp hp1]; exact hnil
        · exact hothers p hp hp1
  · have hres : StartEthServices services order
        = (pre.map (fun p => ((p.1, none) : Call)) ++ [(k, some e)], some e) := by
      apply StartEthServices_of_loop_fail; simpa using h4
    have hsub : ∀ p ∈ pre, p ∈ nonBlock order := fun p hp => by rw [h1]; simp [hp]
    have hks : (k, s) ∈ nonBlock order := by rw [h1]; simp
    refine ⟨fun _ => ⟨pre.map (fun p => ((p.1, none) : Call)), k, s, e, by rw [hres], ?_,
      hord.mem_iff.1 (mem_nonBlock.1 hks).1, h3, by rw [hres]⟩, fun _ => ?_, ?_⟩
    · intro c hc
      obtain ⟨q, _, rfl⟩ := List.mem_map.1 hc; rfl
    · rw [hres]
      intro hmem
      simp only [List.map_append, List.map_map, List.map_cons, List.map_nil, List.mem_append,
        List.mem_map, List.mem_singleton, Function.comp_def] at hmem
      rcases hmem with ⟨q, hq, hq1⟩ | hk
      · exact (mem_nonBlock.1 (hsub q hq)).2 hq1
      · exact (mem_nonBlock.1 hks).2 hk.symm
    · intro hnil; rw [hres] at hnil; simp at hnil

/-- Witness for C6: the map `{A (fails), BlockService}`, where `A` fails and
`BlockService` is never started. -/
theorem StartEthServices_first_failure_witness :
    NodupKeys servicesAFailsBlock ∧ servicesAFailsBlock.Perm servicesAFailsBlock ∧
    (∃ p ∈ servicesAFailsBlock, p.1 ≠ "BlockService" ∧ p.2.Start ≠ none) ∧
    ((∃ p ∈ servicesAFailsBlock, p.2.Start ≠ none) →
      ∃ pre k s e,
        (StartEthServices servicesAFailsBlock servicesAFailsBlock).1 = pre ++ [(k, some e)] ∧
        (∀ c ∈ pre, c.2 = none) ∧ (k, s) ∈ servicesAFailsBlock ∧ s.Start = some e ∧
        (StartEthServices servicesAFailsBlock servicesAFailsBlock).2 = some e) ∧
    ((∃ p ∈ servicesAFailsBlock, p.1 ≠ "BlockService" ∧ p.2.Start ≠ none) →
      "BlockService" ∉
        (StartEthServices servicesAFailsBlock servicesAFailsBlock).1.map Prod.fst) ∧
    ((StartEthServices servicesAFailsBlock servicesAFailsBlock).2 = none →
      ∀ p ∈ servicesAFailsBlock, p.2.Start = none) :=
  ⟨by decide, List.Perm.refl _, ⟨("A", failingService "errA"), by decide, by decide, by decide⟩,
    StartEthServices_first_failure servicesAFailsBlock servicesAFailsBlock (by decide)
      (List.Perm.refl _)⟩

/-- C7, as stated, fails: for `{A (Stop fails), B (Stop succeeds)}` ranged over
with `A` first, `StopEthServices` returns the error of `A` without calling
`B.Stop`. -/
theorem StopEthServices_skips_after_failure :
    ("B", okService) ∈ servicesAFailsB ∧
    StopEthServices servicesAFailsB = ([("A", some "errA")], some "errA") ∧
    "B" ∉ (StopEthServices servicesAFailsB).1.map Prod.fst := by
  decide

/-- C7, amended: `StopEthServices` calls `Stop` on the services in the order the
map is ranged over and returns at the first `Stop` that fails, with that error
and without calling the services after it; when every `Stop` succeeds it calls
`Stop` once on every registered service and returns nil. -/
theorem StopEthServices_first_failure (services : ServiceMap)
    (order : List (String × EventService)) (hord : order.Perm services) :
    ((∀ p ∈ services, p.2.Stop = none) →
      (StopEthServices order).2 = none ∧
      (StopEthServices order).1 = order.map (fun p => (p.1, none)) ∧
      ((StopEthServices order).1.map Prod.fst).Perm (services.map Prod.fst)) ∧
    ((∃ p ∈ services, p.2.Stop ≠ none) →
      ∃ pre k s e post, order = pre ++ (k, s) :: post ∧ (∀ p ∈ pre, p.2.Stop = none) ∧
        s.Stop = some e ∧
        (StopEthServices order).1 = pre.map (fun p => (p.1, none)) ++ [(k, some e)] ∧
        (StopEthServices order).2 = some e) := by
  rw [StopEthServices_eq]
  rcases stopLoop_spec order [] with ⟨h1, h2, h3⟩ | ⟨pre, k, s, e, post, h1, h2, h3, h4⟩
  · refine ⟨fun _ => ⟨h1, by simpa using h2, ?_⟩, ?_⟩
    · rw [h2]; simpa [List.map_map, Function.comp_def] using hord.map Prod.fst
    · rintro ⟨p, hp, hne⟩
      exact absurd (h3 p (hord.mem_iff.2 hp)) hne
  · refine ⟨fun hall => ?_, fun _ => ⟨pre, k, s, e, post, h1, h2, h3, by simp [h4], by simp [h4]⟩⟩
    have hmem : (k, s) ∈ order := by rw [h1]; simp
    have := hall _ (hord.mem_iff.1 hmem)
    simp [h3] at this

/-- Witness for the amended C7: the map `{A (Stop fails), B}` ranged over with `B`
first: `B.Stop` is called, then `A.Stop`, whose error is returned. -/
theorem StopEthServices_first_failure_witness :
    orderBThenA.Perm servicesAFailsB ∧
    ∃ pre k s e post, orderBThenA = pre ++ (k, s) :: post ∧ (∀ p ∈ pre, p.2.Stop = none) ∧
      s.Stop = some e ∧
      (StopEthServices orderBThenA).1 = pre.map (fun p => (p.1, none)) ++ [(k, some e)] ∧
      (StopEthServices orderBThenA).2 = some e :=
  ⟨List.Perm.swap _ _ _,
    (StopEthServices_first_failure servicesAFailsB orderBThenA (List.Perm.swap _ _ _)).2
      ⟨("A", failingService "errA"), by decide, by decide⟩⟩

/-! ## Pool construction -/

theorem parseLoop_eq {URL : Type} (parse : String → Option URL) (l : List String)
    (acc : List URL) :
    parseLoop parse l acc = acc ++ l.filterMap (fun a => parse (normaliseAddr a)) := by
  induction l generalizing acc with
  | nil => simp [parseLoop]
  | cons a tl ih =>
    cases h : parse (normaliseAddr a) with
    | none => simp [parseLoop, h, ih]
    | some u => simp [parseLoop, h, ih]

theorem permLoop_eq {URL : Type} (uris : List URL) (idx : List Nat) (acc : List URL)
    (h : ∀ i ∈ idx, i < uris.length) :
    permLoop uris idx acc = .ok (acc ++ idx.filterMap (fun i => uris[i]?)) := by
  induction idx generalizing acc with
  | nil => simp [permLoop]
  | cons i tl ih =>
    have hi : i < uris.length := h i (List.mem_cons_self _ _)
    have hget : uris[i]? = some uris[i] := List.getElem?_eq_getElem hi
    have htl : ∀ j ∈ tl, j < uris.length := fun j hj => h j (List.mem_cons_of_mem _ hj)
    simp [permLoop, hget, ih _ htl]

theorem filterMap_getElem?_range {α : Type} (l : List α) :
    (List.range l.length).filterMap (fun i => l[i]?) = l := by
  induction l using List.reverseRecOn with
  | nil => simp
  | append_singleton l a ih =>
    have hlen : (l ++ [a]).length = l.length + 1 := by simp
    rw [hlen, List.range_succ, List.filterMap_append]
    have h1 : (List.range l.length).filterMap (fun i => (l ++ [a])[i]?)
        = (List.range l.length).filterMap (fun i => l[i]?) := by
      apply List.filterMap_congr
      intro i hi
      exact List.getElem?_append_left (List.mem_range.1 hi)
    rw [h1, ih]
    simp

/-- With `r.Perm` returning a permutation of the indices, `NewOrchestratorPool`
does not panic and its uris are the parsed valid addresses in another order. -/
theorem NewOrchestratorPool_eq {URL Info : Type} (parse : String → Option URL)
    (randPerm : Nat → List Nat) (hperm : ∀ n, (randPerm n).Perm (List.range n))
    (addresses : List String) :
    ∃ pool : orchestratorPool URL Info,
      NewOrchestratorPool parse randPerm addresses = .ok pool ∧ pool.rpc = none ∧
      pool.uris.Perm (addresses.filterMap (fun a => parse (normaliseAddr a))) := by
  have hpl : parseLoop parse addresses [] = addresses.filterMap (fun a => parse (normaliseAddr a)) := by
    rw [parseLoop_eq]; simp
  have hp := hperm (addresses.filterMap (fun a => parse (normaliseAddr a))).length
  have hrange : ∀ i ∈ randPerm (addresses.filterMap (fun a => parse (normaliseAddr a))).length,
      i < (addresses.filterMap (fun a => parse (normaliseAddr a))).length :=
    fun i hi => List.mem_range.1 (hp.mem_iff.1 hi)
  refine ⟨⟨(randPerm (addresses.filterMap (fun a => parse (normaliseAddr a))).length).filterMap
    (fun i => (addresses.filterMap (fun a => parse (normaliseAddr a)))[i]?), none⟩, ?_, rfl, ?_⟩
  · simp only [NewOrchestratorPool, hpl]
    rw [permLoop_eq _ _ _ hrange]
    simp
  · have := hp.filterMap (fun i => (addresses.filterMap (fun a => parse (normaliseAddr a)))[i]?)
    rw [filterMap_getElem?_range] at this
    exact this

/-- C4: the uris of the pool `NewOrchestratorPool` builds are a permutation of the
parsed forms of exactly the input addresses whose normalised form passes
`url.ParseRequestURI` (one candidate per valid address, none for an invalid one);
the pool is no longer than the input, and an input without a valid address gives
the empty pool, not a failure. `randPerm` is `r.Perm`, which returns a permutation
of the indices. -/
theorem NewOrchestratorPool_valid_perm {URL Info : Type} (parse : String → Option URL)
    (randPerm : Nat → List Nat) (hperm : ∀ n, (randPerm n).Perm (List.range n))
    (addresses : List String) :
    ∃ pool : orchestratorPool URL Info,
      NewOrchestratorPool parse randPerm addresses = .ok pool ∧
      pool.uris.Perm (addresses.filterMap (fun a => parse (normaliseAddr a))) ∧
      pool.uris.length ≤ addresses.length ∧
      ((∀ a ∈ addresses, parse (normaliseAddr a) = none) → pool.uris = []) := by
  obtain ⟨pool, h1, _, h3⟩ := @NewOrchestratorPool_eq URL Info parse randPerm hperm addresses
  refine ⟨pool, h1, h3, ?_, ?_⟩
  · rw [h3.length_eq]; exact List.length_filterMap_le _ _
  · intro hnone
    have : addresses.filterMap (fun a => parse (normaliseAddr a)) = [] :=
      List.filterMap_eq_nil_iff.2 hnone
    rw [this] at h3
    exact List.perm_nil.1 h3

/-- Witness for C4: the addresses `https://h1`, `not a url`, `h2` with the indices
shuffled in reverse. -/
theorem NewOrchestratorPool_valid_perm_witness :
    (∀ n, (reversedIndices n).Perm (List.range n)) ∧
    ∃ pool : orchestratorPool String String,
      NewOrchestratorPool parseNoBlank reversedIndices
        ["https://h1", "not a url", "h2"] = .ok pool ∧
      pool.uris.Perm (["https://h1", "not a url", "h2"].filterMap
        (fun a => parseNoBlank (normaliseAddr a))) ∧
      pool.uris.length ≤ ["https://h1", "not a url", "h2"].length ∧
      ((∀ a ∈ ["https://h1", "not a url", "h2"], parseNoBlank (normaliseAddr a) = none) →
        pool.uris = []) :=
  ⟨fun _ => List.reverse_perm _,
    NewOrchestratorPool_valid_perm parseNoBlank reversedIndices
      (fun _ => List.reverse_perm _) ["https://h1", "not a url", "h2"]⟩

/-- C8, as stated, fails: `ftp://h` carries a scheme and still gets `https://`
prefixed, and `httpbin.org` carries none and is left as it is. The source tests
for the prefix `http`, not for a scheme. -/
theorem normaliseAddr_not_scheme_test :
    carriesScheme "ftp://h" = true ∧ normaliseAddr "ftp://h" = "https://ftp://h" ∧
    normaliseAddr "ftp://h" ≠ specNormaliseAddr "ftp://h" ∧
    carriesScheme "httpbin.org" = false ∧ normaliseAddr "httpbin.org" = "httpbin.org" ∧
    normaliseAddr "httpbin.org" ≠ specNormaliseAddr "httpbin.org" := by
  decide

/-- C8, amended: `NewOrchestratorPool` normalises each address before validation by
prefixing `https://` exactly when the address does not start with the four
characters `http`; an address that starts with `http` is left unchanged, and the
normalised address always starts with `http`. Validation is applied to the
normalised address. -/
theorem normaliseAddr_http_test (addr : String) :
    (normaliseAddr addr = addr ↔ HasPrefix addr "http" = true) ∧
    (normaliseAddr addr = "https://" ++ addr ↔ HasPrefix addr "http" = false) ∧
    HasPrefix (normaliseAddr addr) "http" = true ∧
    (∀ (parse : String → Option String) (addresses : List String),
      parseLoop parse (addr :: addresses) []
        = (parse (normaliseAddr addr)).toList ++ parseLoop parse addresses []) := by
  have hne : "https://" ++ addr ≠ addr := by
    intro h
    have := congrArg (fun s => s.data.length) h
    simp at this
    omega
  have hpre : HasPrefix ("https://" ++ addr) "http" = true := by
    simp [HasPrefix]
  refine ⟨?_, ?_, ?_, ?_⟩
  · cases h : HasPrefix addr "http" <;> simp [normaliseAddr, h, hne]
  · cases h : HasPrefix addr "http" <;> simp [normaliseAddr, h, hne.symm]
  · cases h : HasPrefix addr "http" <;> simp [normaliseAddr, h, hpre]
  · intro parse addresses
    rw [parseLoop_eq, parseLoop_eq]
    cases h : parse (normaliseAddr addr) <;> simp [h]

/-- C9, as stated, fails: for a node without registry client, and for one whose
registry query fails, `NewOnchainOrchestratorPool` returns the nil pool pointer
(`return nil`), not an empty pool. No pool value comes back, and reading
`o.uris` through the result panics, whereas the empty pool that
`NewOrchestratorPool` builds from no address can be read. -/
theorem NewOnchainOrchestratorPool_nil_not_empty :
    (NewOnchainOrchestratorPool parseNoBlank reversedIndices offchainNode :
      Nat × Outcome (Option (orchestratorPool String String))) = (0, .ok none) ∧
    (¬ ∃ pool : orchestratorPool String String,
      (NewOnchainOrchestratorPool parseNoBlank reversedIndices offchainNode).2
        = .ok (some pool) ∧ pool.uris = []) ∧
    (NewOnchainOrchestratorPool parseNoBlank reversedIndices failingRegistryNode :
      Nat × Outcome (Option (orchestratorPool String String))) = (1, .ok none) ∧
    (¬ ∃ pool : orchestratorPool String String,
      (NewOnchainOrchestratorPool parseNoBlank reversedIndices failingRegistryNode).2
        = .ok (some pool) ∧ pool.uris = []) ∧
    poolUris (none : Option (orchestratorPool String String)) = .panic ∧
    (∃ pool : orchestratorPool String String,
      NewOrchestratorPool parseNoBlank reversedIndices [] = .ok pool ∧
      poolUris (some pool) = .ok []) := by
  refine ⟨rfl, ?_, rfl, ?_, rfl, ⟨⟨[], none⟩, rfl, rfl⟩⟩
  · rintro ⟨pool, h, _⟩
    have h2 : (NewOnchainOrchestratorPool parseNoBlank reversedIndices offchainNode :
        Nat × Outcome (Option (orchestratorPool String String))).2 = .ok none := rfl
    rw [h2] at h
    cases h
  · rintro ⟨pool, h, _⟩
    have h2 : (NewOnchainOrchestratorPool parseNoBlank reversedIndices failingRegistryNode :
        Nat × Outcome (Option (orchestratorPool String String))).2 = .ok none := rfl
    rw [h2] at h
    cases h

/-- C9, amended: `NewOnchainOrchestratorPool` returns nil (no pool at all, not an
empty one), without calling the registry, when the node has no registry client;
it returns nil as well when `RegisteredTranscoders` returns an error; otherwise
it returns exactly the pool `NewOrchestratorPool` builds from the `ServiceURI`
values of the registered entries in registry order, so that every valid
registered service address is in the pool. `randPerm` is `r.Perm`, which returns
a permutation of the indices. -/
theorem NewOnchainOrchestratorPool_spec {URL Info : Type} (parse : String → Option URL)
    (randPerm : Nat → List Nat) (hperm : ∀ n, (randPerm n).Perm (List.range n))
    (node : LivepeerNode) :
    (node.Eth = none →
      (NewOnchainOrchestratorPool parse randPerm node :
        Nat × Outcome (Option (orchestratorPool URL Info))) = (0, .ok none)) ∧
    (∀ eth orchs e, node.Eth = some eth → eth.RegisteredTranscoders = (orchs, some e) →
      (NewOnchainOrchestratorPool parse randPerm node :
        Nat × Outcome (Option (orchestratorPool URL Info))) = (1, .ok none)) ∧
    (∀ eth orchs, node.Eth = some eth → eth.RegisteredTranscoders = (orchs, none) →
      ∃ pool : orchestratorPool URL Info,
        NewOrchestratorPool parse randPerm (orchs.map (fun orch => orch.ServiceURI))
          = .ok pool ∧
        NewOnchainOrchestratorPool parse randPerm node = (1, .ok (some pool)) ∧
        ∀ t ∈ orchs, ∀ u, parse (normaliseAddr t.ServiceURI) = some u → u ∈ pool.uris) := by
  refine ⟨fun h => by simp [NewOnchainOrchestratorPool, h],
    fun eth orchs e h1 h2 => by simp [NewOnchainOrchestratorPool, h1, h2],
    fun eth orchs h1 h2 => ?_⟩
  obtain ⟨pool, hp1, _, hp3⟩ := @NewOrchestratorPool_eq URL Info parse randPerm hperm
    (orchs.map (fun orch => orch.ServiceURI))
  refine ⟨pool, hp1, by simp [NewOnchainOrchestratorPool, h1, h2, hp1], ?_⟩
  intro t ht u hu
  apply hp3.mem_iff.2
  exact List.mem_filterMap.2 ⟨t.ServiceURI, List.mem_map.2 ⟨t, ht, rfl⟩, hu⟩

/-- Witness for the amended C9: a node whose registry lists the three service addresses of the
test. -/
theorem NewOnchainOrchestratorPool_spec_witness :
    (∀ n, (reversedIndices n).Perm (List.range n)) ∧
    ∃ pool : orchestratorPool String String,
      NewOrchestratorPool parseNoBlank reversedIndices
        (registeredOrchs.map (fun orch => orch.ServiceURI)) = .ok pool ∧
      NewOnchainOrchestratorPool parseNoBlank reversedIndices onchainNode
        = (1, .ok (some pool)) ∧
      ∀ t ∈ registeredOrchs, ∀ u, parseNoBlank (normaliseAddr t.ServiceURI) = some u →
        u ∈ pool.uris :=
  ⟨fun _ => List.reverse_perm _,
    (NewOnchainOrchestratorPool_spec parseNoBlank reversedIndices
      (fun _ => List.reverse_perm _) onchainNode).2.2 ⟨(registeredOrchs, none)⟩ registeredOrchs
      rfl rfl⟩

/-! ## Discovery runs -/

/-- After `append` the capacity covers the length. -/
theorem Slice.append_length_le_cap {α : Type} (growCap : Nat → Nat) (s : Slice α) (x : α) :
    (s.append growCap x).elems.length ≤ (s.append growCap x).cap := by
  unfold Slice.append
  split
  · simp; omega
  · simp

theorem Slice.append_elems {α : Type} (growCap : Nat → Nat) (s : Slice α) (x : α) :
    (s.append growCap x).elems = s.elems ++ [x] := by
  unfold Slice.append
  split <;> rfl

/-- The coordinator's state moves only from waiting to woken in `getOrchInfo`. -/
theorem getOrchInfo_coord {URL Info : Type} (growCap : Nat → Nat) (uris : List URL)
    (rpc : URL → RpcResult Info) (k : Int) (s : RunState Info) (i : Nat) (uri : URL) :
    (getOrchInfo growCap uris rpc k s i uri).coord = s.coord ∨
    (s.coord = .waiting ∧ (getOrchInfo growCap uris rpc k s i uri).coord = .woken) := by
  cases hc : s.coord with
  | waiting =>
    simp only [getOrchInfo, hc]
    split_ifs <;> simp
  | woken =>
    simp only [getOrchInfo, hc]
    split_ifs <;> simp
  | returned r =>
    simp only [getOrchInfo, hc]
    split_ifs <;> simp

/-- The result slice only grows at its end, and its capacity keeps covering its
length. -/
theorem getOrchInfo_orchInfos {URL Info : Type} (growCap : Nat → Nat) (uris : List URL)
    (rpc : URL → RpcResult Info) (k : Int) (s : RunState Info) (i : Nat) (uri : URL) :
    (∃ ext, (getOrchInfo growCap uris rpc k s i uri).orchInfos.elems
        = s.orchInfos.elems ++ ext) ∧
    (s.orchInfos.elems.length ≤ s.orchInfos.cap →
      (getOrchInfo growCap uris rpc k s i uri).orchInfos.elems.length
        ≤ (getOrchInfo growCap uris rpc k s i uri).orchInfos.cap) := by
  have happ : ∀ x, (∃ ext, (s.orchInfos.append growCap x).elems = s.orchInfos.elems ++ ext) ∧
      (s.orchInfos.elems.length ≤ s.orchInfos.cap →
        (s.orchInfos.append growCap x).elems.length ≤ (s.orchInfos.append growCap x).cap) :=
    fun x => ⟨⟨[x], Slice.append_elems _ _ _⟩, fun _ => Slice.append_length_le_cap _ _ _⟩
  have hsame : (∃ ext, s.orchInfos.elems = s.orchInfos.elems ++ ext) ∧
      (s.orchInfos.elems.length ≤ s.orchInfos.cap →
        s.orchInfos.elems.length ≤ s.orchInfos.cap) := ⟨⟨[], by simp⟩, fun h => h⟩
  cases hc : s.coord with
  | waiting =>
    simp only [getOrchInfo, hc]
    split_ifs <;> first | exact hsame | exact happ _
  | woken =>
    simp only [getOrchInfo, hc]
    split_ifs <;> first | exact hsame | exact happ _
  | returned r =>
    simp only [getOrchInfo, hc]
    split_ifs <;> first | exact hsame | exact happ _

/-- A failed query leaves the result slice as it is. -/
theorem getOrchInfo_failure {URL Info : Type} (growCap : Nat → Nat) (uris : List URL)
    (rpc : URL → RpcResult Info) (k : Int) (s : RunState Info) (i : Nat) (uri : URL)
    (hne : (rpc uri).2 ≠ none) :
    (getOrchInfo growCap uris rpc k s i uri).orchInfos = s.orchInfos := by
  cases hc : s.coord with
  | waiting =>
    simp only [getOrchInfo, hc, hne, if_false]
    split_ifs <;> rfl
  | woken =>
    simp only [getOrchInfo, hc, hne, if_false]
    split_ifs <;> rfl
  | returned r =>
    simp only [getOrchInfo, hc, hne, if_false]
    split_ifs <;> rfl

/-- How one event moves the coordinator: not at all, from waiting to woken, or
from woken to returned with the slice expression on the slice of that moment. -/
theorem step_coord {URL Info : Type} (growCap : Nat → Nat) (uris : List URL)
    (rpc : URL → RpcResult Info) (k : Int) (s : RunState Info) (ev : Event) :
    (step growCap uris rpc k s ev).coord = s.coord ∨
    (s.coord = .waiting ∧ (step growCap uris rpc k s ev).coord = .woken) ∨
    (s.coord = .woken ∧
      (step growCap uris rpc k s ev).coord = .returned (returnOrchs s.orchInfos k)) := by
  cases ev with
  | deadline =>
    cases hc : s.coord <;> simp [step, hc]
  | read =>
    cases hc : s.coord <;> simp [step, hc]
  | respond i =>
    simp only [step]
    split
    · rcases getOrchInfo_coord growCap uris rpc k s i _ with h | h
      · exact Or.inl h
      · exact Or.inr (Or.inl h)
    · exact Or.inl rfl

theorem step_orchInfos {URL Info : Type} (growCap : Nat → Nat) (uris : List URL)
    (rpc : URL → RpcResult Info) (k : Int) (s : RunState Info) (ev : Event) :
    (∃ ext, (step growCap uris rpc k s ev).orchInfos.elems = s.orchInfos.elems ++ ext) ∧
    (s.orchInfos.elems.length ≤ s.orchInfos.cap →
      (step growCap uris rpc k s ev).orchInfos.elems.length
        ≤ (step growCap uris rpc k s ev).orchInfos.cap) := by
  have hsame : (∃ ext, s.orchInfos.elems = s.orchInfos.elems ++ ext) ∧
      (s.orchInfos.elems.length ≤ s.orchInfos.cap →
        s.orchInfos.elems.length ≤ s.orchInfos.cap) := ⟨⟨[], by simp⟩, fun h => h⟩
  cases ev with
  | deadline =>
    cases hc : s.coord <;> simp only [step, hc] <;> exact hsame
  | read =>
    cases hc : s.coord <;> simp only [step, hc] <;> exact hsame
  | respond i =>
    simp only [step]
    split
    · exact getOrchInfo_orchInfos growCap uris rpc k s i _
    · exact hsame

theorem step_orchInfos_failure {URL Info : Type} (growCap : Nat → Nat) (uris : List URL)
    (rpc : URL → RpcResult Info) (k : Int) (hfail : ∀ u ∈ uris, (rpc u).2 ≠ none)
    (s : RunState Info) (ev : Event) :
    (step growCap uris rpc k s ev).orchInfos = s.orchInfos := by
  cases ev with
  | deadline =>
    cases hc : s.coord <;> simp only [step, hc]
  | read =>
    cases hc : s.coord <;> simp only [step, hc]
  | respond i =>
    simp only [step]
    split
    · rename_i _ _ uri hu _
      exact getOrchInfo_failure growCap uris rpc k s i uri (hfail uri (List.getElem?_mem hu))
    · rfl

/-- Once the coordinator has returned, its result is fixed. -/
theorem step_returned {URL Info : Type} (growCap : Nat → Nat) (uris : List URL)
    (rpc : URL → RpcResult Info) (k : Int) (s : RunState Info) (ev : Event)
    (r : Returned Info) (h : s.coord = .returned r) :
    (step growCap uris rpc k s ev).coord = .returned r := by
  rcases step_coord growCap uris rpc k s ev with h1 | ⟨h1, _⟩ | ⟨h1, _⟩
  · rw [h1, h]
  · rw [h] at h1; cases h1
  · rw [h] at h1; cases h1

theorem runFrom_append {URL Info : Type} (growCap : Nat → Nat) (uris : List URL)
    (rpc : URL → RpcResult Info) (k : Int) (s : RunState Info) (a b : List Event) :
    runFrom growCap uris rpc k s (a ++ b)
      = runFrom growCap uris rpc k (runFrom growCap uris rpc k s a) b := by
  simp [runFrom, List.foldl_append]

/-- Slicing up to `k` a slice that starts with the `k` entries `l` gives `l`,
whatever follows them. -/
theorem returnOrchs_of_start {Info : Type} (sl : Slice (Option Info)) (k : Nat)
    (l ext : List (Option Info)) (hl : l.length = k) (hext : sl.elems = l ++ ext)
    (hcap : sl.elems.length ≤ sl.cap) :
    returnOrchs sl (k : Int) = .ok (l, none) := by
  have hlen : k ≤ sl.elems.length := by rw [hext]; simp; omega
  have hk : (0 : Int) ≤ (k : Int) ∧ (k : Int) ≤ (sl.cap : Int) := by omega
  simp only [returnOrchs, Slice.upTo, hk, and_self, if_true, Int.toNat_ofNat]
  rw [List.take_append_of_le_length hlen, hext,
    List.take_append_of_le_length (by omega), ← hl, List.take_length]

/-- A slice expression either panics or yields exactly the requested number of
entries. -/
theorem returnOrchs_length {Info : Type} (sl : Slice (Option Info)) (k : Int)
    (l : List (Option Info)) (e : GoError) (h : returnOrchs sl k = .ok (l, e)) :
    0 ≤ k ∧ l.length = k.toNat ∧ e = none := by
  unfold returnOrchs Slice.upTo at h
  split at h
  · rename_i l2 heq
    split at heq
    · rename_i hk
      cases heq
      cases h
      refine ⟨hk.1, ?_, rfl⟩
      simp only [List.length_take, List.length_append, List.length_replicate]
      omega
    · cases heq
  · cases h

/-- The empty slice cannot be sliced up to a positive bound. -/
theorem returnOrchs_empty {Info : Type} (k : Int) (hk : 1 ≤ k) :
    returnOrchs (Slice.empty : Slice (Option Info)) k = .panic := by
  have : ¬ (0 ≤ k ∧ k ≤ 0) := by omega
  simp [returnOrchs, Slice.upTo, Slice.empty, this]

/-- Once the coordinator is woken with a slice that starts with the `k` entries
`l`, the call returns `l`: later appends land behind them and the slice
expression cuts them off. -/
theorem runFrom_fixed {URL Info : Type} (growCap : Nat → Nat) (uris : List URL)
    (rpc : URL → RpcResult Info) (k : Nat) (l : List (Option Info)) (hl : l.length = k)
    (sched : List Event) (s : RunState Info)
    (hs : (s.coord = .woken ∧ (∃ ext, s.orchInfos.elems = l ++ ext) ∧
        s.orchInfos.elems.length ≤ s.orchInfos.cap) ∨
      s.coord = .returned (.ok (l, none))) :
    ((runFrom growCap uris rpc (k : Int) s sched).coord = .woken ∧
      (∃ ext, (runFrom growCap uris rpc (k : Int) s sched).orchInfos.elems = l ++ ext) ∧
      (runFrom growCap uris rpc (k : Int) s sched).orchInfos.elems.length
        ≤ (runFrom growCap uris rpc (k : Int) s sched).orchInfos.cap) ∨
    (runFrom growCap uris rpc (k : Int) s sched).coord = .returned (.ok (l, none)) := by
  induction sched generalizing s with
  | nil => exact hs
  | cons ev tl ih =>
    apply ih
    rcases hs with ⟨hc, ⟨ext, hext⟩, hcap⟩ | hc
    · obtain ⟨⟨ext2, hext2⟩, hcap2⟩ := step_orchInfos growCap uris rpc (k : Int) s ev
      rcases step_coord growCap uris rpc (k : Int) s ev with h1 | ⟨h1, _⟩ | ⟨_, h1⟩
      · left
        refine ⟨by rw [h1, hc], ⟨ext ++ ext2, ?_⟩, hcap2 hcap⟩
        rw [hext2, hext, List.append_assoc]
      · rw [hc] at h1; cases h1
      · right
        rw [h1, returnOrchs_of_start s.orchInfos k l ext hl hext hcap]
    · right
      exact step_returned growCap uris rpc (k : Int) s ev _ hc

/-- The run of the first successful responders: the k-th of them wakes the
coordinator with exactly their k responses in the slice, and whatever the rest
of the schedule does the coordinator ends woken with a slice that starts with
these responses, or returned with them. -/
theorem runFrom_successes {URL Info : Type} (growCap : Nat → Nat) (uris : List URL)
    (rpc : URL → RpcResult Info) (k : Nat) (hkn : k ≤ uris.length)
    (hok : ∀ u ∈ uris, (rpc u).2 = none)
    (arrivals : List Nat) (rest : List Event) (s : RunState Info)
    (hcoord : s.coord = .waiting) (hlock : s.respLocked = false)
    (hsucc : s.numSuccessResp = s.orchInfos.elems.length)
    (hresp : s.numResp = s.orchInfos.elems.length)
    (hrun : ∀ i ∈ arrivals, s.tasks[i]? = some .running)
    (hnodup : arrivals.Nodup) (hrange : ∀ i ∈ arrivals, i < uris.length)
    (hlt : s.orchInfos.elems.length < k)
    (harr : k ≤ s.orchInfos.elems.length + arrivals.length) :
    ((runFrom growCap uris rpc (k : Int) s (arrivals.map Event.respond ++ rest)).coord = .woken ∧
      (∃ ext, (runFrom growCap uris rpc (k : Int) s
          (arrivals.map Event.respond ++ rest)).orchInfos.elems
        = (s.orchInfos.elems
            ++ (arrivals.take (k - s.orchInfos.elems.length)).filterMap (infoOf uris rpc))
          ++ ext) ∧
      (runFrom growCap uris rpc (k : Int) s
          (arrivals.map Event.respond ++ rest)).orchInfos.elems.length
        ≤ (runFrom growCap uris rpc (k : Int) s
          (arrivals.map Event.respond ++ rest)).orchInfos.cap) ∨
    (runFrom growCap uris rpc (k : Int) s (arrivals.map Event.respond ++ rest)).coord
      = .returned (.ok (s.orchInfos.elems
          ++ (arrivals.take (k - s.orchInfos.elems.length)).filterMap (infoOf uris rpc),
        none)) := by
  induction arrivals generalizing s with
  | nil => simp at harr; omega
  | cons i tl ih =>
    have hi : i < uris.length := hrange i (List.mem_cons_self _ _)
    have hu : uris[i]? = some uris[i] := List.getElem?_eq_getElem hi
    have hrpc : (rpc uris[i]).2 = none := hok _ (List.getElem_mem _)
    have hti : s.tasks[i]? = some .running := hrun i (List.mem_cons_self _ _)
    have hinfo : infoOf uris rpc i = some (rpc uris[i]).1 := by simp [infoOf, hu]
    have htake : (i :: tl).take (k - s.orchInfos.elems.length)
        = i :: tl.take (k - (s.orchInfos.elems.length + 1)) := by
      have : k - s.orchInfos.elems.length = (k - (s.orchInfos.elems.length + 1)) + 1 := by omega
      rw [this, List.take_succ_cons]
    have hrun_eq : runFrom growCap uris rpc (k : Int) s
        ((i :: tl).map Event.respond ++ rest)
        = runFrom growCap uris rpc (k : Int) (step growCap uris rpc (k : Int) s (.respond i))
          (tl.map Event.respond ++ rest) := by
      simp [runFrom]
    rw [hrun_eq, htake]
    by_cases hdone : s.orchInfos.elems.length + 1 = k
    · have hcond : ((s.numSuccessResp + 1 : Nat) : Int) ≥ (k : Int) ∨
          s.numResp + 1 ≥ uris.length := by left; omega
      have hstep : step growCap uris rpc (k : Int) s (.respond i)
          = { orchInfos := s.orchInfos.append growCap (rpc uris[i]).1,
              numResp := s.numResp + 1, numSuccessResp := s.numSuccessResp + 1,
              respLocked := false, tasks := s.tasks.set i .done, coord := .woken } := by
        simp only [step, hu, hti, getOrchInfo, hlock, hrpc, hcoord]
        simp only [Bool.false_eq_true, if_false, if_true]
        rw [if_pos hcond]
      have h0 : k - (s.orchInfos.elems.length + 1) = 0 := by omega
      have hl : s.orchInfos.elems ++ List.filterMap (infoOf uris rpc)
          (i :: tl.take (k - (s.orchInfos.elems.length + 1)))
          = s.orchInfos.elems ++ [(rpc uris[i]).1] := by
        simp [h0, hinfo]
      rw [hl]
      apply runFrom_fixed growCap uris rpc k _ (by simp; omega)
      left
      rw [hstep]
      exact ⟨rfl, ⟨[], by simp [Slice.append_elems]⟩, Slice.append_length_le_cap _ _ _⟩
    · have hcond : ¬ (((s.numSuccessResp + 1 : Nat) : Int) ≥ (k : Int) ∨
          s.numResp + 1 ≥ uris.length) := by omega
      have hstep : step growCap uris rpc (k : Int) s (.respond i)
          = { orchInfos := s.orchInfos.append growCap (rpc uris[i]).1,
              numResp := s.numResp + 1, numSuccessResp := s.numSuccessResp + 1,
              respLocked := false, tasks := s.tasks.set i .done, coord := .waiting } := by
        simp only [step, hu, hti, getOrchInfo, hlock, hrpc, hcoord]
        simp only [Bool.false_eq_true, if_false, if_true]
        rw [if_neg hcond]
      have hnd := List.nodup_cons.1 hnodup
      have hih := ih (step growCap uris rpc (k : Int) s (.respond i))
        (by rw [hstep]) (by rw [hstep])
        (by rw [hstep]; simp [Slice.append_elems, hsucc])
        (by rw [hstep]; simp [Slice.append_elems, hresp])
        (by
          intro j hj
          have hji : i ≠ j := fun h => hnd.1 (h ▸ hj)
          rw [hstep]
          simp only [List.getElem?_set_ne hji]
          exact hrun j (List.mem_cons_of_mem _ hj))
        hnd.2 (fun j hj => hrange j (List.mem_cons_of_mem _ hj))
        (by rw [hstep]; simp [Slice.append_elems]; omega)
        (by rw [hstep]; simp [Slice.append_elems] at harr ⊢; omega)
      have hl : (step growCap uris rpc (k : Int) s (.respond i)).orchInfos.elems
          ++ List.filterMap (infoOf uris rpc)
            (tl.take (k - (step growCap uris rpc (k : Int) s (.respond i)).orchInfos.elems.length))
          = s.orchInfos.elems ++ List.filterMap (infoOf uris rpc)
            (i :: tl.take (k - (s.orchInfos.elems.length + 1))) := by
        rw [hstep]; simp [Slice.append_elems, hinfo]
      rw [hl] at hih
      exact hih

theorem initState_task {URL Info : Type} (uris : List URL) (i : Nat) (hi : i < uris.length) :
    (initState uris : RunState Info).tasks[i]? = some .running := by
  simp [initState, List.getElem?_replicate, hi]

theorem infoOf_length {URL Info : Type} (uris : List URL) (rpc : URL → RpcResult Info)
    (l : List Nat) (h : ∀ i ∈ l, i < uris.length) :
    (l.filterMap (infoOf uris rpc)).length = l.length := by
  induction l with
  | nil => simp
  | cons i tl ih =>
    have hi : i < uris.length := h i (List.mem_cons_self _ _)
    have hinfo : infoOf uris rpc i = some (rpc uris[i]).1 := by
      simp [infoOf, List.getElem?_eq_getElem hi]
    rw [List.filterMap_cons_some hinfo]
    simp [ih (fun j hj => h j (List.mem_cons_of_mem _ hj))]

/-- Whatever the schedule, a call that returns hands back exactly
`numOrchestrators` entries and a nil error. -/
theorem runFrom_result_length {URL Info : Type} (growCap : Nat → Nat) (uris : List URL)
    (rpc : URL → RpcResult Info) (k : Int) (sched : List Event) (s : RunState Info)
    (hs : ∀ l e, s.coord = .returned (.ok (l, e)) → l.length = k.toNat ∧ e = none) :
    ∀ l e, (runFrom growCap uris rpc k s sched).coord = .returned (.ok (l, e)) →
      l.length = k.toNat ∧ e = none := by
  induction sched generalizing s with
  | nil => exact hs
  | cons ev tl ih =>
    apply ih
    intro l e hle
    rcases step_coord growCap uris rpc k s ev with h1 | ⟨_, h1⟩ | ⟨_, h1⟩
    · exact hs l e (by rw [← h1, hle])
    · rw [h1] at hle; cases hle
    · rw [h1] at hle
      exact (returnOrchs_length _ _ _ _ (Coord.returned.inj hle)).2

theorem GetOrchestrators_result_length {URL Info : Type} (growCap : Nat → Nat)
    (o : orchestratorPool URL Info) (k : Int) (sched : List Event)
    (l : List (Option Info)) (e : GoError)
    (h : GetOrchestrators growCap o k sched = .ok (l, e)) : l.length = k.toNat ∧ e = none := by
  unfold GetOrchestrators at h
  split at h
  · split at h
    · exact (returnOrchs_length _ _ _ _ h).2
    · cases h
  · rename_i rpc _
    split at h
    · rename_i r hr
      subst h
      exact runFrom_result_length growCap o.uris rpc k _ (initState o.uris)
        (by intro l e hc; simp [initState] at hc) l e hr
    · exact (returnOrchs_length _ _ _ _ h).2
    · exact (returnOrchs_length _ _ _ _ h).2

/-- With no successful response the result slice stays the empty literal, and the
coordinator, whenever it reads it, panics in `orchInfos[:numOrchestrators]`. -/
theorem runFrom_no_success {URL Info : Type} (growCap : Nat → Nat) (uris : List URL)
    (rpc : URL → RpcResult Info) (k : Int) (hfail : ∀ u ∈ uris, (rpc u).2 ≠ none)
    (hk : 1 ≤ k) (sched : List Event) (s : RunState Info)
    (hinfos : s.orchInfos = Slice.empty)
    (hcoord : s.coord = .waiting ∨ s.coord = .woken ∨ s.coord = .returned .panic) :
    (runFrom growCap uris rpc k s sched).orchInfos = Slice.empty ∧
    ((runFrom growCap uris rpc k s sched).coord = .waiting ∨
      (runFrom growCap uris rpc k s sched).coord = .woken ∨
      (runFrom growCap uris rpc k s sched).coord = .returned .panic) := by
  induction sched generalizing s with
  | nil => exact ⟨hinfos, hcoord⟩
  | cons ev tl ih =>
    apply ih
    · rw [step_orchInfos_failure growCap uris rpc k hfail s ev, hinfos]
    · rcases step_coord growCap uris rpc k s ev with h1 | ⟨_, h1⟩ | ⟨_, h1⟩
      · rw [h1]; exact hcoord
      · exact Or.inr (Or.inl h1)
      · rw [h1, hinfos, returnOrchs_empty k hk]; exact Or.inr (Or.inr rfl)

theorem GetOrchestrators_no_success {URL Info : Type} (growCap : Nat → Nat)
    (o : orchestratorPool URL Info) (rpc : URL → RpcResult Info) (k : Int)
    (sched : List Event) (hrpc : o.rpc = some rpc) (hk : 1 ≤ k)
    (hfail : ∀ u ∈ o.uris, (rpc u).2 ≠ none) :
    GetOrchestrators growCap o k sched = .panic := by
  have h1 := runFrom_no_success growCap o.uris rpc k hfail hk sched (initState o.uris) rfl
    (Or.inl rfl)
  simp only [GetOrchestrators, hrpc, runGetOrchestrators]
  rcases h1.2 with hc | hc | hc
  · rw [hc, h1.1]; exact returnOrchs_empty k hk
  · rw [hc, h1.1]; exact returnOrchs_empty k hk
  · rw [hc]

/-- After the coordinator has left the `select` with the requested number of
successes counted, the next goroutine to record its response finds the
completion condition true again, sends on `orchChan` and stays blocked with
`respLock` held. -/
theorem step_late_respond {URL Info : Type} (growCap : Nat → Nat) (uris : List URL)
    (rpc : URL → RpcResult Info) (k : Int) (s : RunState Info) (i : Nat) (u : URL)
    (hu : uris[i]? = some u) (ht : s.tasks[i]? = some .running)
    (hl : s.respLocked = false) (hc : s.coord ≠ .waiting)
    (hcount : k ≤ (s.numSuccessResp : Int)) :
    (step growCap uris rpc k s (.respond i)).respLocked = true ∧
    (step growCap uris rpc k s (.respond i)).tasks = s.tasks.set i .blockedSend := by
  have hcond : ((if (rpc u).2 = none then s.numSuccessResp + 1 else s.numSuccessResp : Nat) : Int)
      ≥ k ∨ s.numResp + 1 ≥ uris.length := by
    left; split <;> omega
  cases hcs : s.coord with
  | waiting => exact absurd hcs hc
  | woken =>
    simp only [step, hu, ht, getOrchInfo, hl, hcs]
    simp only [Bool.false_eq_true, if_false]
    rw [if_pos hcond]
    exact ⟨rfl, rfl⟩
  | returned r =>
    simp only [step, hu, ht, getOrchInfo, hl, hcs]
    simp only [Bool.false_eq_true, if_false]
    rw [if_pos hcond]
    exact ⟨rfl, rfl⟩

/-! ## Discovery theorems -/

/-- C1: for a pool of n candidates whose queries all succeed and a request of k
results with 1 <= k <= n, `GetOrchestrators` returns a nil error and exactly k
results, which are the responses of the first k candidates to answer, in the
order they answered (`arrivals`, not the order of the pool). The schedule is any
in which at least k candidates answer before the deadline fires. Everything
after the k-th answer is free: further candidates of `arrivals` and the events
of `rest` may record responses before the woken coordinator reads the slice,
and the slice expression cuts these off. -/
theorem GetOrchestrators_first_k {URL Info : Type} (growCap : Nat → Nat)
    (o : orchestratorPool URL Info) (rpc : URL → RpcResult Info) (k : Nat)
    (arrivals : List Nat) (rest : List Event)
    (hrpc : o.rpc = some rpc) (hk1 : 1 ≤ k) (hkn : k ≤ o.uris.length)
    (hok : ∀ u ∈ o.uris, (rpc u).2 = none)
    (hnodup : arrivals.Nodup) (hrange : ∀ i ∈ arrivals, i < o.uris.length)
    (harr : k ≤ arrivals.length) :
    GetOrchestrators growCap o (k : Int) (arrivals.map Event.respond ++ rest)
      = .ok ((arrivals.take k).filterMap (infoOf o.uris rpc), none) ∧
    ((arrivals.take k).filterMap (infoOf o.uris rpc)).length = k := by
  have hlen : ((arrivals.take k).filterMap (infoOf o.uris rpc)).length = k := by
    rw [infoOf_length _ _ _ (fun i hi => hrange i (List.mem_of_mem_take hi))]
    simp [harr]
  refine ⟨?_, hlen⟩
  have h := runFrom_successes growCap o.uris rpc k hkn hok arrivals rest
    (initState o.uris) rfl rfl rfl rfl
    (fun i hi => initState_task o.uris i (hrange i hi)) hnodup hrange
    (by simp [initState, Slice.empty]; omega) (by simp [initState, Slice.empty]; omega)
  have h0 : (initState o.uris : RunState Info).orchInfos.elems = [] := rfl
  rw [h0] at h
  simp only [List.nil_append, List.length_nil, Nat.sub_zero] at h
  simp only [GetOrchestrators, hrpc, runGetOrchestrators]
  rcases h with ⟨hc, ⟨ext, hext⟩, hcap⟩ | hc
  · rw [hc]
    exact returnOrchs_of_start _ k _ ext hlen hext hcap
  · rw [hc]

/-- Witness for C1: the three candidates of the test answer in the order 2, 0, 1
and one result is requested. The response of candidate 0 is appended before the
coordinator reads the slice, and is cut off by `orchInfos[:1]`. -/
theorem GetOrchestrators_first_k_witness :
    (1 : Nat) ≤ 1 ∧ 1 ≤ ["a", "b", "c"].length ∧
    (runGetOrchestrators doubleCap ["a", "b", "c"] stubRpc ((1 : Nat) : Int)
      ([2, 0, 1].map Event.respond ++ [])).orchInfos.elems = [some "c", some "a"] ∧
    GetOrchestrators doubleCap (⟨["a", "b", "c"], some stubRpc⟩ : orchestratorPool String String)
      ((1 : Nat) : Int) ([2, 0, 1].map Event.respond ++ [])
      = .ok (([2, 0, 1].take 1).filterMap (infoOf ["a", "b", "c"] stubRpc), none) :=
  ⟨by decide, by decide, by decide,
    (GetOrchestrators_first_k doubleCap ⟨["a", "b", "c"], some stubRpc⟩ stubRpc 1 [2, 0, 1] []
      rfl (by decide) (by decide) (by intro u _; rfl) (by decide) (by decide) (by decide)).1⟩

/-- C2 at a failing input: a pool of the one candidate `a`, whose query succeeds,
asked for two results. The slice holds one entry with capacity one and
`orchInfos[:2]` panics. Whatever the growth of capacities, the call never returns
the one collected response alone: it panics or pads the result with nil entries
(three successes asked for four give a fourth entry that is nil). -/
theorem GetOrchestrators_more_than_pool :
    GetOrchestrators doubleCap (⟨["a"], some stubRpc⟩ : orchestratorPool String String) 2
      [.respond 0] = .panic ∧
    (∀ growCap : Nat → Nat,
      GetOrchestrators growCap (⟨["a"], some stubRpc⟩ : orchestratorPool String String) 2
        [.respond 0] ≠ .ok ([some "a"], none)) ∧
    GetOrchestrators doubleCap (⟨["a", "b", "c"], some stubRpc⟩ : orchestratorPool String String)
      4 [.respond 2, .respond 0, .respond 1]
      = .ok ([some "c", some "a", some "b", none], none) := by
  refine ⟨by decide, ?_, by decide⟩
  intro growCap h
  have := (GetOrchestrators_result_length growCap _ _ _ _ _ h).1
  simp at this

/-- C3 at a failing input: a pool of the one candidate `a`, whose query fails, asked
for one result. On the completion path (the candidate has answered) and on the
deadline path (it has not, or answers after the coordinator has read the slice)
the result slice is the empty literal of capacity 0 and `orchInfos[:1]` panics. -/
theorem GetOrchestrators_no_success_panics :
    (∀ growCap : Nat → Nat,
      GetOrchestrators growCap (⟨["a"], some failRpc⟩ : orchestratorPool String String) 1
        [.respond 0] = .panic) ∧
    (∀ growCap : Nat → Nat,
      GetOrchestrators growCap (⟨["a"], some failRpc⟩ : orchestratorPool String String) 1
        [] = .panic) ∧
    GetOrchestrators doubleCap (⟨["a"], some stubRpc⟩ : orchestratorPool String String) 1
      [.deadline, .read, .respond 0] = .panic := by
  refine ⟨fun growCap => ?_, fun growCap => ?_, by decide⟩
  · exact GetOrchestrators_no_success growCap _ failRpc 1 _ rfl (by decide)
      (by intro u _; simp [failRpc])
  · exact GetOrchestrators_no_success growCap _ failRpc 1 _ rfl (by decide)
      (by intro u _; simp [failRpc])

/-- C10 at a failing input: candidates `a` and `b`, one result requested. The
response of `a` signals completion, the coordinator receives the signal and
returns. When `b` then records its response (before or after the coordinator
has read the slice) the completion condition holds again, `b` sends on
`orchChan`, which nobody receives from any more, and stays blocked with `respLock`
held; this does not depend on what the query of `b` returned. -/
theorem GetOrchestrators_late_task_blocks :
    (runGetOrchestrators doubleCap ["a", "b"] stubRpc 1 [.respond 0]).coord = .woken ∧
    (runGetOrchestrators doubleCap ["a", "b"] stubRpc 1 [.respond 0, .read]).coord
      = .returned (.ok ([some "a"], none)) ∧
    (runGetOrchestrators doubleCap ["a", "b"] stubRpc 1 [.respond 0]).tasks
      = [.done, .running] ∧
    (runGetOrchestrators doubleCap ["a", "b"] stubRpc 1 [.respond 0, .respond 1]).tasks
      = [.done, .blockedSend] ∧
    (runGetOrchestrators doubleCap ["a", "b"] stubRpc 1 [.respond 0, .respond 1]).respLocked
      = true ∧
    (runGetOrchestrators doubleCap ["a", "b"]
      (fun u => if u = "a" then stubRpc u else failRpc u) 1 [.respond 0, .respond 1]).tasks
      = [.done, .blockedSend] ∧
    (runGetOrchestrators doubleCap ["a", "b"] stubRpc 1
      [.respond 0, .read, .respond 1]).tasks = [.done, .blockedSend] ∧
    (runGetOrchestrators doubleCap ["a", "b"] stubRpc 1
      [.respond 0, .read, .respond 1]).respLocked = true := by
  decide

end Livepeer
